import Mathlib

/-!
Verification of the pfun lens library (`src/pfun/lens.py`) and the
`result` wrapper (`src/pfun/result.py`) against its specification.

The Python values a lens transformation manipulates are modelled by the
inductive type `Val`: record-like containers with named fields
(`pfun.Immutable` instances), pfun `List` sequences, plain tuples,
pfun `Dict` mappings, and atomic leaves.  Exceptions raised by the
Python code are modelled by the error type `Err` carried in `Except`.
Mutation never appears: the Python code copies every container before
writing (`copy.copy` / slicing / `Dict.set`), so pure value semantics
is a faithful model and "the original object is unmodified" holds by
construction.
-/

namespace Pfun

/-- Keys usable in `Index` path elements: integers (sequence positions,
also valid mapping keys) and strings (mapping keys). -/
inductive Key where
  | i : Int → Key
  | s : String → Key
deriving DecidableEq, Repr

/-- Exception kinds the modelled Python code can raise:
`attrNotFound` = AttributeError, `indexOutOfBounds` = IndexError,
`keyNotFound` = KeyError, `typeError` = TypeError, and `valueError` =
the ValueError raised by the iterable unpacking at the start of
`Transform.__call__` when the path is empty. -/
inductive Err where
  | attrNotFound
  | indexOutOfBounds
  | keyNotFound
  | typeError
  | valueError
deriving DecidableEq, Repr

/-- Python values reachable by lens paths: atomic leaves (integers and
strings), record containers with named fields (`pfun.Immutable`
instances, field order = declaration order), pfun `List` sequences,
plain tuples, and pfun `Dict` mappings (entry order = insertion
order). -/
inductive Val where
  | int : Int → Val
  | str : String → Val
  | obj : List (String × Val) → Val
  | list : List Val → Val
  | tup : List Val → Val
  | dict : List (Key × Val) → Val

/-- Field lookup in a record container, as Python attribute lookup. -/
def lookupField : List (String × Val) → String → Option Val
  | [], _ => none
  | (k, v) :: rest, n => if k = n then some v else lookupField rest n

/-- Entry lookup in a mapping container, as Python dict lookup. -/
def lookupKey : List (Key × Val) → Key → Option Val
  | [], _ => none
  | (k, v) :: rest, n => if k = n then some v else lookupKey rest n

/-- Replacement of the value of one existing field of a record,
leaving every other entry in place.  Models the effect of
`copy.copy(x)` followed by `object.__setattr__` on the copy: a new
container of the same concrete type in which only the one field slot
differs and sibling fields keep their original values. -/
def setField : List (String × Val) → String → Val → List (String × Val)
  | [], _, _ => []
  | (k, w) :: rest, n, v =>
    if k = n then (k, v) :: rest else (k, w) :: setField rest n v

/-- Upsert into a mapping, as `pfun.Dict.set`.  Modelled from the spec:
`pfun.dict.Dict` is not under src/; the spec says set "returns a new
mapping equal to the original except the entry at `index` is updated to
`value` (insert semantics if the key is new)".  A new key is appended,
matching Python dict insertion order. -/
def dictSet : List (Key × Val) → Key → Val → List (Key × Val)
  | [], k, v => [(k, v)]
  | (k', w) :: rest, k, v =>
    if k' = k then (k', v) :: rest else (k', w) :: dictSet rest k v

/-- Python sequence index normalisation for `x[i]`: a negative index
counts from the end. -/
def pyNorm (n : Nat) (i : Int) : Int :=
  if i < 0 then i + n else i

/-- Python sequence indexing `x[i]`, raising IndexError when the
normalised index is outside the sequence. -/
def pyIndex (xs : List Val) (i : Int) : Except Err Val :=
  let j := pyNorm xs.length i
  if 0 ≤ j then
    match xs.get? j.toNat with
    | some v => .ok v
    | none => .error .indexOutOfBounds
  else .error .indexOutOfBounds

/-- Python slice-bound normalisation: the effective position of bound
`i` in a sequence of length `n` (negative bounds count from the end,
everything is clamped into `[0, n]`).  `x[:i]` keeps the first
`pyBound n i` elements and `x[i:]` drops them. -/
def pyBound (n : Nat) (i : Int) : Nat :=
  min (pyNorm n i).toNat n

/-- Sequence update used by `Index.set` on pfun `List` and on tuples:
check `x[index]` first (to trigger the natural bounds check), then
rebuild as `x[:index] + [value] + x[index + 1:]` with Python slice
semantics. -/
def seqSet (xs : List Val) (i : Int) (v : Val) : Except Err (List Val) :=
  match pyIndex xs i with
  | .error e => .error e
  | .ok _ =>
    .ok (xs.take (pyBound xs.length i) ++ [v] ++ xs.drop (pyBound xs.length (i + 1)))

/-- Attribute read, as `Attr.get`: `getattr(x, attr)`.  Only record
containers have instance attributes; every other value raises
AttributeError for the field names a lens can mention. -/
def attrGet (n : String) (x : Val) : Except Err Val :=
  match x with
  | .obj fields =>
    match lookupField fields n with
    | some v => .ok v
    | none => .error .attrNotFound
  | _ => .error .attrNotFound

/-- Attribute write, as `Attr.set`: shallow-copy the container and
overwrite the one field slot.  Modelled from the spec for the
missing-field case: `pfun.immutable.Immutable` is not under src/, and
the spec says attribute containers enforce pre-existence of the field
(`AttributeNotFound` when the container lacks it, matching `Attr.get`).
Non-record values raise AttributeError (`object.__setattr__` on a
tuple, int or str fails). -/
def attrSet (n : String) (x : Val) (v : Val) : Except Err Val :=
  match x with
  | .obj fields =>
    match lookupField fields n with
    | some _ => .ok (.obj (setField fields n v))
    | none => .error .attrNotFound
  | _ => .error .attrNotFound

/-- Index read, as `Index.get`: `x[index]`.  Sequences require an
integer index (TypeError otherwise) with Python bounds semantics;
mappings raise KeyError for a missing key (modelled from the spec,
`pfun.dict.Dict` not being under src/); other values raise TypeError. -/
def indexGet (k : Key) (x : Val) : Except Err Val :=
  match x with
  | .list xs | .tup xs =>
    match k with
    | .i i => pyIndex xs i
    | .s _ => .error .typeError
  | .dict m =>
    match lookupKey m k with
    | some v => .ok v
    | none => .error .keyNotFound
  | _ => .error .typeError

/-- Index write, as `Index.set`: pfun `List` and tuple branches splice
with slices after the `x[self.index]` bounds check; the `Dict` branch
delegates to `Dict.set` (upsert, never fails); the generic fallback
(`copy.copy` then `x[index] = value`) raises TypeError on the remaining
value kinds, which do not support item assignment. -/
def indexSet (k : Key) (x : Val) (v : Val) : Except Err Val :=
  match x with
  | .list xs =>
    match k with
    | .i i =>
      match seqSet xs i v with
      | .ok ys => .ok (.list ys)
      | .error e => .error e
    | .s _ => .error .typeError
  | .tup xs =>
    match k with
    | .i i =>
      match seqSet xs i v with
      | .ok ys => .ok (.tup ys)
      | .error e => .error e
    | .s _ => .error .typeError
  | .dict m => .ok (.dict (dictSet m k v))
  | _ => .error .typeError

/-- Path elements, as the `PathElement` subclasses `Attr` and `Index`. -/
inductive PathElement where
  | attr : String → PathElement
  | index : Key → PathElement
deriving DecidableEq, Repr

/-- Dispatch of `get` over the `PathElement` variants. -/
def PathElement.get : PathElement → Val → Except Err Val
  | .attr n, x => attrGet n x
  | .index k, x => indexGet k x

/-- Dispatch of `set` over the `PathElement` variants. -/
def PathElement.set : PathElement → Val → Val → Except Err Val
  | .attr n, x, v => attrSet n x v
  | .index k, x, v => indexSet k x v

/-- Split of a path into all-but-last and last, as the iterable
unpacking `*rest, head = self.lens` at the start of
`Transform.__call__`; `none` models the ValueError raised on an empty
iterable. -/
def splitLast : List PathElement → Option (List PathElement × PathElement)
  | [] => none
  | pe :: rest =>
    match splitLast rest with
    | none => some ([], pe)
    | some (r, h) => some (pe :: r, h)

/-- Downward walk of `Transform.__call__`: starting from the root, run
`get` for each element of `rest` on the container reached so far,
materialising the stack of visited containers.  The pair
`(attrs, last)` is the Python `attr_stack` split as
`*attrs, last_attr = attr_stack`. -/
def buildStack : List PathElement → List Val → Val → Except Err (List Val × Val)
  | [], attrs, last => .ok (attrs, last)
  | pe :: pes, attrs, last =>
    match pe.get last with
    | .error e => .error e
    | .ok next => buildStack pes (attrs ++ [last]) next

/-- Upward walk of `Transform.__call__`: for each
`(container, path_element)` pair of `zip(reversed(attrs),
reversed(rest))`, re-set the container with the freshly rebuilt child
value, threading it upward. -/
def rebuild : List (Val × PathElement) → Val → Except Err Val
  | [], t => .ok t
  | (attr, pe) :: rest, t =>
    match pe.set attr t with
    | .error e => .error e
    | .ok next => rebuild rest next

/-- Transformation produced by `Lens.__lshift__`: a path bound to a
replacement value. -/
structure Transform where
  lens : List PathElement
  value : Val

/-- Application of a transformation, as `Transform.__call__`: unpack
the path into `rest` and `head` (ValueError when empty), walk the gets
down `rest`, apply `head.set` with the bound value, then re-set every
visited container in reverse order. -/
def Transform.call (t : Transform) (a : Val) : Except Err Val :=
  match splitLast t.lens with
  | none => .error .valueError
  | some (rest, head) =>
    match buildStack rest [] a with
    | .error e => .error e
    | .ok (attrs, last) =>
      match head.set last t.value with
      | .error e => .error e
      | .ok transformed => rebuild (List.zip attrs.reverse rest.reverse) transformed

/-- Modelled from the spec: the recursive reference definition of
transformation application quoted in the refinement claim — on a
non-empty path `s1 :: rest` the result is `s1.set a r` where `r` is
the recursive application of the tail transform to `s1.get a`, and on
the empty path the result is the bound value itself (spec §4.3 step 1).
This is the definition the iterative `Transform.call` is compared
against; it is not code of the repository. -/
def applyRec (path : List PathElement) (value : Val) (a : Val) : Except Err Val :=
  match path with
  | [] => .ok value
  | s :: rest =>
    match s.get a with
    | .error e => .error e
    | .ok child =>
      match applyRec rest value child with
      | .error e => .error e
      | .ok newChild => s.set a newChild

/-- Builder returned by `lens()`: wraps an accumulated path.  It
supports attribute and index access but does not define `__lshift__`. -/
structure RootLens where
  path : List PathElement

/-- Builder produced by attribute or index access: same data as
`RootLens` (it is a subclass) but additionally defines `__lshift__`. -/
structure Lens where
  path : List PathElement

/-- Attribute access `RootLens.__getattr__`: a new `Lens` whose path is
the old path extended with `Attr(name)`. -/
def RootLens.getattr (b : RootLens) (n : String) : Lens :=
  ⟨b.path ++ [PathElement.attr n]⟩

/-- Index access `RootLens.__getitem__`: a new `Lens` whose path is the
old path extended with `Index(index)`. -/
def RootLens.getitem (b : RootLens) (k : Key) : Lens :=
  ⟨b.path ++ [PathElement.index k]⟩

/-- Upcast of a `Lens` to its `RootLens` part: `Lens` inherits
attribute and index access from `RootLens`. -/
def Lens.toRoot (l : Lens) : RootLens :=
  ⟨l.path⟩

/-- Operator `Lens.__lshift__`: bind a replacement value to the path,
producing a `Transform`.  Only `Lens` defines it, not `RootLens`. -/
def Lens.lshift (l : Lens) (v : Val) : Transform :=
  ⟨l.path, v⟩

/-- Entry point `lens()`: a fresh `RootLens` with the empty path (the
optional type argument has no runtime effect). -/
def lensEntry : RootLens :=
  ⟨[]⟩

/-- Paths of builders reachable from the public entry point: `b = false`
for the `RootLens` returned by `lensEntry`, `b = true` for the `Lens`
instances produced by `RootLens.getattr` / `RootLens.getitem` (the only
builders defining `__lshift__`, hence the only ones from which a
`Transform` can be publicly constructed). -/
inductive Reachable : List PathElement → Bool → Prop where
  | root : Reachable [] false
  | attr : ∀ p b n, Reachable p b → Reachable (p ++ [PathElement.attr n]) true
  | index : ∀ p b k, Reachable p b → Reachable (p ++ [PathElement.index k]) true

/-- Python exceptions deriving from `Exception` (caught by the
`except Exception` clause of `result`). -/
structure PyException where
  msg : String
deriving DecidableEq, Repr

/-- Python exceptions deriving from `BaseException` but not from
`Exception` (e.g. `KeyboardInterrupt`); `result` does not catch them. -/
structure PyBaseException where
  msg : String
deriving DecidableEq, Repr

/-- Outcome of calling a Python function: a normal return, a raised
`Exception`-derived error, or a raised non-`Exception`
`BaseException`. -/
inductive Outcome (β : Type) where
  | ok : β → Outcome β
  | exc : PyException → Outcome β
  | base : PyBaseException → Outcome β
deriving DecidableEq, Repr

/-- Values of `pfun.result.Result`: `Ok` wraps a normal result, `Error`
wraps a raised exception. -/
inductive Result (β : Type) where
  | Ok : β → Result β
  | Error : PyException → Result β
deriving DecidableEq, Repr

/-- Wrapper `pfun.result.result`: call `f`, wrap a normal return in
`Ok` and a raised `Exception` in `Error`; anything not derived from
`Exception` propagates. -/
def resultWrap {α β : Type} (f : α → Outcome β) (a : α) : Outcome (Result β) :=
  match f a with
  | .ok b => .ok (.Ok b)
  | .exc e => .ok (.Error e)
  | .base e => .base e

/-! Helper lemmas about the embedded operations. -/

theorem splitLast_eq_none (p : List PathElement) :
    splitLast p = none ↔ p = [] := by
  cases p with
  | nil => simp [splitLast]
  | cons pe rest =>
    simp only [splitLast]
    constructor
    · intro h
      cases hr : splitLast rest with
      | none => rw [hr] at h; exact Option.noConfusion h
      | some q => rw [hr] at h; cases q; exact Option.noConfusion h
    · intro h; exact List.noConfusion h

theorem splitLast_concat (xs : List PathElement) (x : PathElement) :
    splitLast (xs ++ [x]) = some (xs, x) := by
  induction xs with
  | nil => rfl
  | cons a as ih => simp [splitLast, ih]

theorem splitLast_eq_some (p : List PathElement) (r : List PathElement)
    (h : PathElement) (hs : splitLast p = some (r, h)) : p = r ++ [h] := by
  induction p generalizing r with
  | nil => exact Option.noConfusion hs
  | cons pe rest ih =>
    simp only [splitLast] at hs
    cases hr : splitLast rest with
    | none =>
      rw [hr] at hs
      rw [(splitLast_eq_none rest).mp hr]
      cases hs
      rfl
    | some q =>
      cases q with
      | mk r' h' =>
        rw [hr] at hs
        cases hs
        rw [ih r' hr]
        rfl

theorem buildStack_accum (pre : List Val) (rest : List PathElement)
    (acc : List Val) (last : Val) :
    buildStack rest (pre ++ acc) last =
      Except.map (fun q => (pre ++ q.1, q.2)) (buildStack rest acc last) := by
  induction rest generalizing acc last with
  | nil => rfl
  | cons pe pes ih =>
    simp only [buildStack]
    cases hpe : pe.get last with
    | error e => rfl
    | ok next =>
      rw [List.append_assoc]
      exact ih (acc ++ [last]) next

theorem buildStack_length (rest : List PathElement) (acc : List Val)
    (last : Val) (attrs : List Val) (l : Val)
    (h : buildStack rest acc last = .ok (attrs, l)) :
    attrs.length = acc.length + rest.length := by
  induction rest generalizing acc last with
  | nil =>
    simp only [buildStack] at h
    cases h
    simp
  | cons pe pes ih =>
    simp only [buildStack] at h
    cases hpe : pe.get last with
    | error e => rw [hpe] at h; exact Except.noConfusion h
    | ok next =>
      rw [hpe] at h
      have := ih (acc ++ [last]) next h
      simp at this
      simp [this]
      omega

theorem rebuild_append (p q : List (Val × PathElement)) (t : Val) :
    rebuild (p ++ q) t =
      match rebuild p t with
      | .ok u => rebuild q u
      | .error e => .error e := by
  induction p generalizing t with
  | nil => rfl
  | cons hd p' ih =>
    cases hd with
    | mk attr pe =>
      simp only [List.cons_append, rebuild]
      cases hset : pe.set attr t with
      | error e => rfl
      | ok next => exact ih next

theorem pyIndex_error (xs : List Val) (i : Int) (e : Err)
    (h : pyIndex xs i = .error e) : e = Err.indexOutOfBounds := by
  simp only [pyIndex] at h
  split at h
  · split at h
    · exact Except.noConfusion h
    · exact (Except.error.inj h).symm
  · exact (Except.error.inj h).symm

theorem seqSet_error (xs : List Val) (i : Int) (v : Val) (e : Err)
    (h : seqSet xs i v = .error e) : e = Err.indexOutOfBounds := by
  simp only [seqSet] at h
  cases hp : pyIndex xs i with
  | error e' =>
    rw [hp] at h
    cases h
    exact pyIndex_error xs i e hp
  | ok w => rw [hp] at h; exact Except.noConfusion h

theorem attrGet_error (n : String) (x : Val) (e : Err)
    (h : attrGet n x = .error e) : e = Err.attrNotFound := by
  cases x with
  | obj fields =>
    simp only [attrGet] at h
    split at h
    · exact Except.noConfusion h
    · exact (Except.error.inj h).symm
  | int m => exact (Except.error.inj h).symm
  | str s => exact (Except.error.inj h).symm
  | list xs => exact (Except.error.inj h).symm
  | tup xs => exact (Except.error.inj h).symm
  | dict m => exact (Except.error.inj h).symm

theorem attrSet_error (n : String) (x : Val) (v : Val) (e : Err)
    (h : attrSet n x v = .error e) : e = Err.attrNotFound := by
  cases x with
  | obj fields =>
    simp only [attrSet] at h
    split at h
    · exact Except.noConfusion h
    · exact (Except.error.inj h).symm
  | int m => exact (Except.error.inj h).symm
  | str s => exact (Except.error.inj h).symm
  | list xs => exact (Except.error.inj h).symm
  | tup xs => exact (Except.error.inj h).symm
  | dict m => exact (Except.error.inj h).symm

theorem indexGet_error (k : Key) (x : Val) (e : Err)
    (h : indexGet k x = .error e) : e ≠ Err.valueError := by
  cases x with
  | list xs =>
    cases k with
    | i i =>
      simp only [indexGet] at h
      rw [pyIndex_error xs i e h]
      simp
    | s s => simp only [indexGet] at h; cases h; simp
  | tup xs =>
    cases k with
    | i i =>
      simp only [indexGet] at h
      rw [pyIndex_error xs i e h]
      simp
    | s s => simp only [indexGet] at h; cases h; simp
  | dict m =>
    simp only [indexGet] at h
    split at h
    · exact Except.noConfusion h
    · cases h; simp
  | int m => cases h; simp
  | str s => cases h; simp
  | obj fields => cases h; simp

theorem indexSet_error (k : Key) (x : Val) (v : Val) (e : Err)
    (h : indexSet k x v = .error e) : e ≠ Err.valueError := by
  cases x with
  | list xs =>
    cases k with
    | i i =>
      simp only [indexSet] at h
      cases hs : seqSet xs i v with
      | error e' =>
        rw [hs] at h
        cases h
        rw [seqSet_error xs i v e hs]
        simp
      | ok ys => rw [hs] at h; exact Except.noConfusion h
    | s s => simp only [indexSet] at h; cases h; simp
  | tup xs =>
    cases k with
    | i i =>
      simp only [indexSet] at h
      cases hs : seqSet xs i v with
      | error e' =>
        rw [hs] at h
        cases h
        rw [seqSet_error xs i v e hs]
        simp
      | ok ys => rw [hs] at h; exact Except.noConfusion h
    | s s => simp only [indexSet] at h; cases h; simp
  | dict m => simp only [indexSet] at h; exact Except.noConfusion h
  | int m => cases h; simp
  | str s => cases h; simp
  | obj fields => cases h; simp

theorem get_not_valueError (pe : PathElement) (c : Val) (e : Err)
    (h : pe.get c = .error e) : e ≠ Err.valueError := by
  cases pe with
  | attr n =>
    rw [attrGet_error n c e h]
    simp
  | index k => exact indexGet_error k c e h

theorem set_not_valueError (pe : PathElement) (c : Val) (w : Val) (e : Err)
    (h : pe.set c w = .error e) : e ≠ Err.valueError := by
  cases pe with
  | attr n =>
    rw [attrSet_error n c w e h]
    simp
  | index k => exact indexSet_error k c w e h

theorem buildStack_error_mem (rest : List PathElement) (acc : List Val)
    (last : Val) (e : Err) (h : buildStack rest acc last = .error e) :
    ∃ pe ∈ rest, ∃ c, pe.get c = .error e := by
  induction rest generalizing acc last with
  | nil => exact Except.noConfusion h
  | cons pe pes ih =>
    simp only [buildStack] at h
    cases hpe : pe.get last with
    | error e' =>
      rw [hpe] at h
      cases h
      exact ⟨pe, by simp, last, hpe⟩
    | ok next =>
      rw [hpe] at h
      obtain ⟨pe', hmem, c, hc⟩ := ih (acc ++ [last]) next h
      exact ⟨pe', by simp [hmem], c, hc⟩

theorem rebuild_error_mem (pairs : List (Val × PathElement)) (t : Val)
    (e : Err) (h : rebuild pairs t = .error e) :
    ∃ q ∈ pairs, ∃ w, q.2.set q.1 w = .error e := by
  induction pairs generalizing t with
  | nil => exact Except.noConfusion h
  | cons hd rest ih =>
    cases hd with
    | mk attr pe =>
      simp only [rebuild] at h
      cases hset : pe.set attr t with
      | error e' =>
        rw [hset] at h
        cases h
        exact ⟨(attr, pe), by simp, t, hset⟩
      | ok next =>
        rw [hset] at h
        obtain ⟨q, hmem, w, hw⟩ := ih next h
        exact ⟨q, by simp [hmem], w, hw⟩

theorem call_eq (rest : List PathElement) (head : PathElement) (v a : Val) :
    Transform.call ⟨rest ++ [head], v⟩ a =
      match buildStack rest [] a with
      | .error e => .error e
      | .ok (attrs, last) =>
        match head.set last v with
        | .error e => .error e
        | .ok transformed =>
          rebuild (List.zip attrs.reverse rest.reverse) transformed := by
  simp only [Transform.call, splitLast_concat]

theorem buildStack_shift (rest : List PathElement) (a last : Val) :
    buildStack rest [a] last =
      Except.map (fun q => (a :: q.1, q.2)) (buildStack rest [] last) := by
  have h := buildStack_accum [a] rest [] last
  simpa using h

theorem call_concat (rest : List PathElement) (head : PathElement) :
    ∀ (v a r : Val), applyRec (rest ++ [head]) v a = .ok r →
      Transform.call ⟨rest ++ [head], v⟩ a = .ok r := by
  induction rest with
  | nil =>
    intro v a r h
    simp only [List.nil_append, applyRec] at h
    cases hget : head.get a with
    | error e => simp only [hget] at h; exact Except.noConfusion h
    | ok c =>
      simp only [hget] at h
      rw [call_eq]
      simp only [buildStack]
      rw [h]
      simp [rebuild]
  | cons s rest0 ih =>
    intro v a r h
    rw [List.cons_append] at h
    simp only [applyRec] at h
    cases hget : s.get a with
    | error e => simp only [hget] at h; exact Except.noConfusion h
    | ok c =>
      simp only [hget] at h
      cases hrec : applyRec (rest0 ++ [head]) v c with
      | error e => simp only [hrec] at h; exact Except.noConfusion h
      | ok r0 =>
        simp only [hrec] at h
        have hcall := ih v c r0 hrec
        rw [call_eq] at hcall
        cases hbs : buildStack rest0 [] c with
        | error e => simp only [hbs] at hcall; exact Except.noConfusion hcall
        | ok p =>
          obtain ⟨attrs0, l0⟩ := p
          simp only [hbs] at hcall
          cases hset : head.set l0 v with
          | error e =>
            simp only [hset] at hcall
            exact Except.noConfusion hcall
          | ok t0 =>
            simp only [hset] at hcall
            rw [call_eq]
            simp only [buildStack, hget, List.nil_append]
            rw [buildStack_shift, hbs]
            simp only [Except.map, hset]
            have hlen : attrs0.reverse.length = rest0.reverse.length := by
              have hl := buildStack_length rest0 [] c attrs0 l0 hbs
              simp at hl
              simp [hl]
            rw [List.reverse_cons, List.reverse_cons, List.zip_append hlen,
              rebuild_append, hcall]
            simp only [List.zip_cons_cons, List.zip_nil_right, rebuild, h]

theorem pyNorm_of_nonneg (n : Nat) (i : Int) (h : 0 ≤ i) :
    pyNorm n i = i := by
  simp only [pyNorm]
  rw [if_neg (by omega : ¬ i < 0)]

theorem pyNorm_of_neg (n : Nat) (i : Int) (h : i < 0) :
    pyNorm n i = i + n := by
  simp only [pyNorm]
  rw [if_pos h]

theorem pyIndex_ok (xs : List Val) (i : Int)
    (h0 : 0 ≤ pyNorm xs.length i) (hlt : pyNorm xs.length i < xs.length) :
    ∃ w, pyIndex xs i = .ok w := by
  simp only [pyIndex]
  rw [if_pos h0]
  cases hg : xs.get? (pyNorm xs.length i).toNat with
  | none =>
    rw [List.get?_eq_none] at hg
    omega
  | some w => exact ⟨w, rfl⟩

theorem pyIndex_out (xs : List Val) (i : Int)
    (h : i < -(xs.length : Int) ∨ (xs.length : Int) ≤ i) :
    pyIndex xs i = .error Err.indexOutOfBounds := by
  simp only [pyIndex, pyNorm]
  by_cases hneg : i < 0
  · rw [if_pos hneg, if_neg (by omega : ¬ (0:Int) ≤ i + xs.length)]
  · rw [if_neg hneg, if_pos (by omega : (0:Int) ≤ i)]
    have hg : xs.get? i.toNat = none := by
      rw [List.get?_eq_none]
      omega
    rw [hg]

theorem seqSet_nonneg (xs : List Val) (i : Int) (v : Val) (h0 : 0 ≤ i)
    (hlt : i < xs.length) :
    seqSet xs i v = .ok (xs.take i.toNat ++ [v] ++ xs.drop (i.toNat + 1)) := by
  have hn := pyNorm_of_nonneg xs.length i h0
  obtain ⟨w, hw⟩ := pyIndex_ok xs i (by omega) (by omega)
  simp only [seqSet, hw]
  have hb1 : pyBound xs.length i = i.toNat := by
    simp only [pyBound, hn]
    exact Nat.min_eq_left (by omega)
  have hb2 : pyBound xs.length (i + 1) = i.toNat + 1 := by
    simp only [pyBound, pyNorm_of_nonneg xs.length (i + 1) (by omega)]
    have h3 : (i + 1).toNat = i.toNat + 1 := by omega
    rw [h3]
    exact Nat.min_eq_left (by omega)
  rw [hb1, hb2]

theorem seqSet_out (xs : List Val) (i : Int) (v : Val)
    (h : i < -(xs.length : Int) ∨ (xs.length : Int) ≤ i) :
    seqSet xs i v = .error Err.indexOutOfBounds := by
  simp only [seqSet, pyIndex_out xs i h]

theorem seqSet_neg (xs : List Val) (i : Int) (v : Val)
    (h1 : -(xs.length : Int) ≤ i) (h2 : i ≤ -2) :
    seqSet xs i v = .ok (xs.set (i + xs.length).toNat v) := by
  have hn := pyNorm_of_neg xs.length i (by omega)
  obtain ⟨w, hw⟩ := pyIndex_ok xs i (by omega) (by omega)
  simp only [seqSet, hw]
  have hb1 : pyBound xs.length i = (i + xs.length).toNat := by
    simp only [pyBound, hn]
    exact Nat.min_eq_left (by omega)
  have hb2 : pyBound xs.length (i + 1) = (i + xs.length).toNat + 1 := by
    simp only [pyBound, pyNorm_of_neg xs.length (i + 1) (by omega)]
    have h3 : (i + 1 + xs.length).toNat = (i + xs.length).toNat + 1 := by omega
    rw [h3]
    exact Nat.min_eq_left (by omega)
  rw [hb1, hb2, List.set_eq_take_append_cons_drop, if_pos (by omega)]
  simp

theorem seqSet_neg_one (xs : List Val) (v : Val) (hn : xs ≠ []) :
    seqSet xs (-1) v = .ok (xs.take (xs.length - 1) ++ [v] ++ xs) := by
  have hl : 0 < xs.length := List.length_pos.mpr hn
  have hno := pyNorm_of_neg xs.length (-1) (by omega)
  obtain ⟨w, hw⟩ := pyIndex_ok xs (-1) (by omega) (by omega)
  simp only [seqSet, hw]
  have hb1 : pyBound xs.length (-1) = xs.length - 1 := by
    simp only [pyBound, hno]
    have h3 : (-1 + (xs.length : Int)).toNat = xs.length - 1 := by omega
    rw [h3]
    exact Nat.min_eq_left (by omega)
  have hb2 : pyBound xs.length (-1 + 1) = 0 := by
    norm_num [pyBound, pyNorm]
  rw [hb1, hb2, List.drop_zero]

theorem lookupKey_dictSet_same (m : List (Key × Val)) (k : Key) (v : Val) :
    lookupKey (dictSet m k v) k = some v := by
  induction m with
  | nil => simp [dictSet, lookupKey]
  | cons hd rest ih =>
    obtain ⟨k', w⟩ := hd
    by_cases hk : k' = k
    · simp [dictSet, lookupKey, hk]
    · simp [dictSet, lookupKey, hk, ih]

theorem lookupKey_dictSet_other (m : List (Key × Val)) (k k' : Key) (v : Val)
    (h : k' ≠ k) : lookupKey (dictSet m k v) k' = lookupKey m k' := by
  induction m with
  | nil =>
    simp [dictSet, lookupKey]
    intro hk
    exact absurd hk.symm h
  | cons hd rest ih =>
    obtain ⟨k'', w⟩ := hd
    by_cases hk : k'' = k
    · subst hk
      simp only [dictSet, if_pos rfl, lookupKey]
      rw [if_neg (fun hh => h hh.symm), if_neg (fun hh => h hh.symm)]
    · simp [dictSet, lookupKey, hk, ih]

theorem lookupField_setField_same (fields : List (String × Val)) (n : String)
    (v : Val) (h : (lookupField fields n).isSome) :
    lookupField (setField fields n v) n = some v := by
  induction fields with
  | nil => simp [lookupField] at h
  | cons hd rest ih =>
    obtain ⟨k, w⟩ := hd
    by_cases hk : k = n
    · simp [setField, lookupField, hk]
    · simp only [setField, if_neg hk, lookupField]
      simp only [lookupField, if_neg hk] at h
      exact ih h

theorem lookupField_setField_other (fields : List (String × Val))
    (n m : String) (v : Val) (h : m ≠ n) :
    lookupField (setField fields n v) m = lookupField fields m := by
  induction fields with
  | nil => simp [setField]
  | cons hd rest ih =>
    obtain ⟨k, w⟩ := hd
    by_cases hk : k = n
    · subst hk
      simp only [setField, if_pos rfl, lookupField]
      rw [if_neg (by intro hkm; exact h hkm.symm), if_neg (by intro hkm; exact h hkm.symm)]
    · simp only [setField, if_neg hk, lookupField]
      by_cases hkm : k = m
      · rw [if_pos hkm, if_pos hkm]
      · rw [if_neg hkm, if_neg hkm]
        exact ih

theorem setField_map_fst (fields : List (String × Val)) (n : String) (v : Val) :
    (setField fields n v).map Prod.fst = fields.map Prod.fst := by
  induction fields with
  | nil => rfl
  | cons hd rest ih =>
    obtain ⟨k, w⟩ := hd
    by_cases hk : k = n
    · simp [setField, hk]
    · simp [setField, hk, ih]

theorem call_concat_no_valueError (rest : List PathElement)
    (head : PathElement) (v a : Val) :
    Transform.call ⟨rest ++ [head], v⟩ a ≠ .error Err.valueError := by
  intro h
  rw [call_eq] at h
  cases hbs : buildStack rest [] a with
  | error e =>
    simp only [hbs] at h
    have he := Except.error.inj h
    subst he
    obtain ⟨pe, _, c, hc⟩ := buildStack_error_mem rest [] a _ hbs
    exact get_not_valueError pe c _ hc rfl
  | ok p =>
    obtain ⟨attrs, last⟩ := p
    simp only [hbs] at h
    cases hset : head.set last v with
    | error e =>
      simp only [hset] at h
      have he := Except.error.inj h
      subst he
      exact set_not_valueError head last v _ hset rfl
    | ok t =>
      simp only [hset] at h
      obtain ⟨q, _, w, hw⟩ := rebuild_error_mem _ t _ h
      exact set_not_valueError q.2 q.1 w _ hw rfl

/-! Claim theorems. -/

/-- Claim C1: for every `Transform` with a non-empty path and every root
on which all the gets and sets of the recursive reference definition
succeed, the iterative `Transform.call` (walk the gets down while
materialising `attr_stack`, apply the last step's set, then re-set each
visited container in reverse order) produces the same new root as the
recursive reference definition `applyRec`; only the chain of ancestors
along the path is rebuilt (the reference rebuilds exactly that chain,
and in this value model unchanged subterms are shared as values). -/
theorem transform_call_refines_reference (path : List PathElement)
    (hne : path ≠ []) (v a r : Val) (h : applyRec path v a = .ok r) :
    Transform.call ⟨path, v⟩ a = .ok r := by
  cases hs : splitLast path with
  | none => exact absurd ((splitLast_eq_none path).mp hs) hne
  | some q =>
    obtain ⟨rest, head⟩ := q
    have hp := splitLast_eq_some path rest head hs
    subst hp
    exact call_concat rest head v a r h

/-- Claim C1 witness: the nested-path example of the spec, at the path
`.user.tags[0]` with value `"z"`. -/
theorem transform_call_refines_reference_witness :
    Transform.call
      ⟨[PathElement.attr "user", PathElement.attr "tags",
        PathElement.index (Key.i 0)], Val.str "z"⟩
      (Val.obj [("user", Val.obj [("name", Val.str "Bob"),
        ("tags", Val.list [Val.str "x", Val.str "y"])])]) =
      .ok (Val.obj [("user", Val.obj [("name", Val.str "Bob"),
        ("tags", Val.list [Val.str "z", Val.str "y"])])]) :=
  transform_call_refines_reference _ (by simp) _ _ _ rfl

/-- Claim C2: if application of a `Transform` with a non-empty path
fails, the error is the error kind of an underlying `get`/`set` applied
by the walk to an actual container — never the ValueError of the path
unpacking — and the walk aborts, propagating it to the caller.  The
original root is left entirely unmodified: the model is pure because
the code copies every container before modification, so failure can
leak no partial mutation. -/
theorem transform_call_error_kinds (path : List PathElement) (v a : Val)
    (e : Err) (hne : path ≠ []) (h : Transform.call ⟨path, v⟩ a = .error e) :
    e ≠ Err.valueError ∧
      ∃ pe ∈ path, (∃ c, pe.get c = .error e) ∨ ∃ c w, pe.set c w = .error e := by
  cases hs : splitLast path with
  | none => exact absurd ((splitLast_eq_none path).mp hs) hne
  | some q =>
    obtain ⟨rest, head⟩ := q
    have hp := splitLast_eq_some path rest head hs
    subst hp
    rw [call_eq] at h
    cases hbs : buildStack rest [] a with
    | error e' =>
      simp only [hbs] at h
      have he := Except.error.inj h
      subst he
      obtain ⟨pe, hmem, c, hc⟩ := buildStack_error_mem rest [] a _ hbs
      exact ⟨get_not_valueError pe c _ hc,
        pe, List.mem_append_left _ hmem, Or.inl ⟨c, hc⟩⟩
    | ok p =>
      obtain ⟨attrs, last⟩ := p
      simp only [hbs] at h
      cases hset : head.set last v with
      | error e' =>
        simp only [hset] at h
        have he := Except.error.inj h
        subst he
        exact ⟨set_not_valueError head last v _ hset,
          head, by simp, Or.inr ⟨last, v, hset⟩⟩
      | ok t =>
        simp only [hset] at h
        obtain ⟨⟨c', pe'⟩, hmem, w, hw⟩ := rebuild_error_mem _ t _ h
        have hq := List.of_mem_zip hmem
        have hpe : pe' ∈ rest := List.mem_reverse.mp hq.2
        exact ⟨set_not_valueError pe' c' w _ hw,
          pe', List.mem_append_left _ hpe, Or.inr ⟨c', w, hw⟩⟩

/-- Claim C2 witness: a path whose single `Attr` step fails on an
atomic root with `AttributeNotFound`. -/
theorem transform_call_error_kinds_witness :
    Err.attrNotFound ≠ Err.valueError ∧
      ∃ pe ∈ [PathElement.attr "x"],
        (∃ c, pe.get c = .error Err.attrNotFound) ∨
        ∃ c w, pe.set c w = .error Err.attrNotFound :=
  transform_call_error_kinds [PathElement.attr "x"] (Val.int 0) (Val.int 1)
    Err.attrNotFound (by simp) rfl

/-- Claim C3 counterexample: a `Transform` built from the empty path
does not return the bound value; `*rest, head = self.lens` raises
ValueError on the empty path, so the call fails instead. -/
theorem empty_path_transform_counterexample :
    Transform.call ⟨[], Val.int 5⟩ (Val.int 7) ≠ Except.ok (Val.int 5) := by
  intro h
  exact Except.noConfusion h

/-- Claim C3 (amended): for every root `r` and value `v`, a `Transform`
built from the empty path, applied to `r`, fails with the ValueError of
the initial path unpacking instead of returning `v`; such a transform
is not constructible through the public API. -/
theorem empty_path_transform_raises (v a : Val) :
    Transform.call ⟨[], v⟩ a = .error Err.valueError := rfl

/-- Claim C4 counterexample: index `-1` lies outside `[0, len)` for the
one-element sequence, yet `Index(-1).set` does not fail — Python slice
semantics accept negative indices and here produce a two-element
result. -/
theorem index_bounds_claim_counterexample :
    indexSet (Key.i (-1)) (Val.list [Val.int 1]) (Val.int 9) =
        .ok (Val.list [Val.int 9, Val.int 1]) ∧
      indexSet (Key.i (-1)) (Val.list [Val.int 1]) (Val.int 9) ≠
        .error Err.indexOutOfBounds := by
  refine ⟨rfl, ?_⟩
  intro h
  exact Except.noConfusion h

/-- Claim C4 (amended): for every ordered sequence and every index `i`
with `0 ≤ i < len`, `Index(i).set` returns the elements before `i`,
then the value, then the elements after `i`, preserving order and
length; it fails with `IndexOutOfBounds` when `i` lies outside
`[-len, len)` (not outside `[0, len)`), because `container[index]` is
accessed first to trigger the bounds check before any rebuilding. -/
theorem index_set_splice_and_bounds (xs : List Val) (i : Int) (v : Val) :
    (0 ≤ i → i < xs.length →
      indexSet (Key.i i) (Val.list xs) v =
        .ok (Val.list (xs.take i.toNat ++ [v] ++ xs.drop (i.toNat + 1))) ∧
      indexSet (Key.i i) (Val.tup xs) v =
        .ok (Val.tup (xs.take i.toNat ++ [v] ++ xs.drop (i.toNat + 1))) ∧
      (xs.take i.toNat ++ [v] ++ xs.drop (i.toNat + 1)).length = xs.length) ∧
    ((i < -(xs.length : Int) ∨ (xs.length : Int) ≤ i) →
      indexSet (Key.i i) (Val.list xs) v = .error Err.indexOutOfBounds ∧
      indexSet (Key.i i) (Val.tup xs) v = .error Err.indexOutOfBounds) := by
  constructor
  · intro h0 hlt
    refine ⟨?_, ?_, ?_⟩
    · simp only [indexSet, seqSet_nonneg xs i v h0 hlt]
    · simp only [indexSet, seqSet_nonneg xs i v h0 hlt]
    · have hmin : min i.toNat xs.length = i.toNat := Nat.min_eq_left (by omega)
      simp [List.length_take, hmin]
      omega
  · intro h
    exact ⟨by simp only [indexSet, seqSet_out xs i v h],
      by simp only [indexSet, seqSet_out xs i v h]⟩

/-- Claim C4 witness: the spec example `[1,2,3]` at index `1` with
value `20`, and the failing index `5`. -/
theorem index_set_splice_and_bounds_witness :
    indexSet (Key.i 1) (Val.list [Val.int 1, Val.int 2, Val.int 3]) (Val.int 20) =
        .ok (Val.list [Val.int 1, Val.int 20, Val.int 3]) ∧
      indexSet (Key.i 5) (Val.list [Val.int 1, Val.int 2, Val.int 3]) (Val.int 20) =
        .error Err.indexOutOfBounds :=
  ⟨((index_set_splice_and_bounds [Val.int 1, Val.int 2, Val.int 3] 1
      (Val.int 20)).1 (by decide) (by decide)).1,
    ((index_set_splice_and_bounds [Val.int 1, Val.int 2, Val.int 3] 5
      (Val.int 20)).2 (by decide)).1⟩

/-- Claim C5: set is asymmetric between mapping keys and attributes —
`Index.set` on a mapping never fails (upsert: the key ends up bound to
the value and every other key is untouched), while `Attr.set`, like
`Attr.get`, fails with `AttributeNotFound` when the container lacks the
field, enforcing pre-existence. -/
theorem mapping_upsert_attr_asymmetry (m : List (Key × Val)) (k : Key)
    (v : Val) (fields : List (String × Val)) (n : String) :
    indexSet k (Val.dict m) v = .ok (Val.dict (dictSet m k v)) ∧
    lookupKey (dictSet m k v) k = some v ∧
    (∀ k', k' ≠ k → lookupKey (dictSet m k v) k' = lookupKey m k') ∧
    (lookupField fields n = none →
      attrSet n (Val.obj fields) v = .error Err.attrNotFound ∧
      attrGet n (Val.obj fields) = .error Err.attrNotFound) := by
  refine ⟨rfl, lookupKey_dictSet_same m k v,
    fun k' h => lookupKey_dictSet_other m k k' v h, fun h => ⟨?_, ?_⟩⟩
  · simp [attrSet, h]
  · simp [attrGet, h]

/-- Claim C5 witness: the spec's mapping-upsert example
`{ "a": 1 }` at the new key `"b"`, and a missing attribute `"b"` on a
one-field record. -/
theorem mapping_upsert_attr_asymmetry_witness :
    indexSet (Key.s "b") (Val.dict [(Key.s "a", Val.int 1)]) (Val.int 2) =
        .ok (Val.dict [(Key.s "a", Val.int 1), (Key.s "b", Val.int 2)]) ∧
      lookupKey (dictSet [(Key.s "a", Val.int 1)] (Key.s "b") (Val.int 2))
        (Key.s "a") = some (Val.int 1) ∧
      attrSet "b" (Val.obj [("a", Val.int 1)]) (Val.int 2) =
        .error Err.attrNotFound :=
  ⟨(mapping_upsert_attr_asymmetry [(Key.s "a", Val.int 1)] (Key.s "b")
      (Val.int 2) [("a", Val.int 1)] "b").1,
    (mapping_upsert_attr_asymmetry [(Key.s "a", Val.int 1)] (Key.s "b")
      (Val.int 2) [("a", Val.int 1)] "b").2.2.1 (Key.s "a") (by decide),
    ((mapping_upsert_attr_asymmetry [(Key.s "a", Val.int 1)] (Key.s "b")
      (Val.int 2) [("a", Val.int 1)] "b").2.2.2 rfl).1⟩

/-- Claim C6: for every record container possessing the named field,
`Attr.set` returns a new container of the same concrete kind in which
only that field holds the new value; every other field holds the
original value of the corresponding field (the same subterm — aliasing
is modelled as value equality in this embedding), the set of field
names is unchanged, and the original container is unchanged (the model
is pure; the code writes only to a `copy.copy`). -/
theorem attr_set_frame_effect (fields : List (String × Val)) (n : String)
    (v : Val) (h : (lookupField fields n).isSome) :
    attrSet n (Val.obj fields) v = .ok (Val.obj (setField fields n v)) ∧
    lookupField (setField fields n v) n = some v ∧
    (∀ m, m ≠ n → lookupField (setField fields n v) m = lookupField fields m) ∧
    (setField fields n v).map Prod.fst = fields.map Prod.fst := by
  refine ⟨?_, lookupField_setField_same fields n v h,
    fun m hm => lookupField_setField_other fields n m v hm,
    setField_map_fst fields n v⟩
  simp only [attrSet]
  cases hl : lookupField fields n with
  | none => rw [hl] at h; simp at h
  | some w => simp only [hl]

/-- Claim C6 witness: the spec's sibling non-interference example, the
two-field container `{a: 1, b: 2}` with `a` set to `9`. -/
theorem attr_set_frame_effect_witness :
    attrSet "a" (Val.obj [("a", Val.int 1), ("b", Val.int 2)]) (Val.int 9) =
        .ok (Val.obj [("a", Val.int 9), ("b", Val.int 2)]) ∧
      lookupField (setField [("a", Val.int 1), ("b", Val.int 2)] "a" (Val.int 9))
        "b" = some (Val.int 2) :=
  ⟨(attr_set_frame_effect [("a", Val.int 1), ("b", Val.int 2)] "a"
      (Val.int 9) rfl).1,
    (attr_set_frame_effect [("a", Val.int 1), ("b", Val.int 2)] "a"
      (Val.int 9) rfl).2.2.1 "b" (by decide)⟩

/-- Claim C7: attribute access on a builder with path `p` returns a new
builder whose path is `p ++ [Attr(n)]`, index access one whose path is
`p ++ [Index(k)]`, and the two compose; the original builder still has
path `p` afterwards because builders are immutable values in this model
(the code allocates a fresh `Lens` with `self.__path + [...]` and never
mutates the shared prefix). -/
theorem builder_extension_paths (b : RootLens) (n : String) (k : Key) :
    (b.getattr n).path = b.path ++ [PathElement.attr n] ∧
    (b.getitem k).path = b.path ++ [PathElement.index k] ∧
    ((b.getattr n).toRoot.getitem k).path =
      b.path ++ [PathElement.attr n] ++ [PathElement.index k] :=
  ⟨rfl, rfl, rfl⟩

/-- Claim C8: every builder path reachable with `b = true` (a `Lens`,
the only builder kind defining `__lshift__`, hence the only way to
construct a `Transform` publicly) is non-empty, its unpacking into
`rest` and `head` succeeds, and applying a `Transform` over it never
surfaces the ValueError of the initial unpacking. -/
theorem public_transform_path_nonempty (p : List PathElement)
    (h : Reachable p true) :
    p ≠ [] ∧ (∃ rest head, splitLast p = some (rest, head)) ∧
      ∀ v a, Transform.call ⟨p, v⟩ a ≠ .error Err.valueError := by
  cases h with
  | attr q b n hq =>
    exact ⟨by simp, ⟨q, _, splitLast_concat q _⟩,
      fun v a => call_concat_no_valueError q _ v a⟩
  | index q b k hq =>
    exact ⟨by simp, ⟨q, _, splitLast_concat q _⟩,
      fun v a => call_concat_no_valueError q _ v a⟩

/-- Claim C8 witness: the path of `lens().name`, reachable through one
attribute access. -/
theorem public_transform_path_nonempty_witness :
    [PathElement.attr "name"] ≠ ([] : List PathElement) ∧
      (∃ rest head, splitLast [PathElement.attr "name"] = some (rest, head)) ∧
      ∀ v a, Transform.call ⟨[PathElement.attr "name"], v⟩ a ≠
        .error Err.valueError :=
  public_transform_path_nonempty [PathElement.attr "name"]
    (Reachable.attr [] false "name" Reachable.root)

/-- Claim C9: negative sequence indices are accepted rather than
rejected — for `-len ≤ i ≤ -2` the element at position `len + i` is
replaced and the length is preserved, but for `i = -1` the suffix slice
`x[i + 1:]` is `x[0:]`, the whole sequence, so the result is
`x[:-1] ++ [v] ++ x` of length `2 * len`. -/
theorem negative_index_behavior (xs : List Val) (v : Val) (hn : xs ≠ []) :
    (∀ i : Int, -(xs.length : Int) ≤ i → i ≤ -2 →
      indexSet (Key.i i) (Val.list xs) v =
        .ok (Val.list (xs.set (i + xs.length).toNat v)) ∧
      indexSet (Key.i i) (Val.tup xs) v =
        .ok (Val.tup (xs.set (i + xs.length).toNat v)) ∧
      (xs.set (i + xs.length).toNat v).length = xs.length) ∧
    (indexSet (Key.i (-1)) (Val.list xs) v =
        .ok (Val.list (xs.take (xs.length - 1) ++ [v] ++ xs)) ∧
      indexSet (Key.i (-1)) (Val.tup xs) v =
        .ok (Val.tup (xs.take (xs.length - 1) ++ [v] ++ xs)) ∧
      (xs.take (xs.length - 1) ++ [v] ++ xs).length = 2 * xs.length) := by
  have hl : 0 < xs.length := List.length_pos.mpr hn
  constructor
  · intro i h1 h2
    refine ⟨?_, ?_, ?_⟩
    · simp only [indexSet, seqSet_neg xs i v h1 h2]
    · simp only [indexSet, seqSet_neg xs i v h1 h2]
    · simp
  · refine ⟨?_, ?_, ?_⟩
    · simp only [indexSet, seqSet_neg_one xs v hn]
    · simp only [indexSet, seqSet_neg_one xs v hn]
    · have hmin : min (xs.length - 1) xs.length = xs.length - 1 :=
        Nat.min_eq_left (by omega)
      simp [List.length_take, hmin]
      omega

/-- Claim C9 witness: `[1,2,3]` at index `-2` (in-place replacement at
position 1) and at index `-1` (length doubles to 6). -/
theorem negative_index_behavior_witness :
    indexSet (Key.i (-2)) (Val.list [Val.int 1, Val.int 2, Val.int 3])
        (Val.int 9) = .ok (Val.list [Val.int 1, Val.int 9, Val.int 3]) ∧
      indexSet (Key.i (-1)) (Val.list [Val.int 1, Val.int 2, Val.int 3])
        (Val.int 9) =
        .ok (Val.list [Val.int 1, Val.int 2, Val.int 9,
          Val.int 1, Val.int 2, Val.int 3]) :=
  ⟨((negative_index_behavior [Val.int 1, Val.int 2, Val.int 3] (Val.int 9)
      (List.cons_ne_nil _ _)).1 (-2) (by decide) (by decide)).1,
    ((negative_index_behavior [Val.int 1, Val.int 2, Val.int 3] (Val.int 9)
      (List.cons_ne_nil _ _)).2).1⟩

/-- Claim C10: the `result` wrapper returns `Ok` of the value when the
wrapped function returns normally and `Error` of the exception when it
raises an `Exception`-derived error; the wrapped function itself never
raises an `Exception`-derived error (only non-`Exception`
`BaseException`s can still escape). -/
theorem result_wraps_outcomes {α β : Type} (f : α → Outcome β) (a : α) :
    (∀ b, f a = .ok b → resultWrap f a = .ok (.Ok b)) ∧
    (∀ e, f a = .exc e → resultWrap f a = .ok (.Error e)) ∧
    ∀ e, resultWrap f a ≠ .exc e := by
  refine ⟨fun b hb => ?_, fun e he => ?_, fun e h => ?_⟩
  · simp [resultWrap, hb]
  · simp [resultWrap, he]
  · simp only [resultWrap] at h
    cases hf : f a <;> simp [hf] at h

/-- Claim C10 witness: a normally returning function, a raising
function, and a function raising a non-`Exception` `BaseException`. -/
theorem result_wraps_outcomes_witness :
    resultWrap (fun _ : Nat => Outcome.ok (3 : Nat)) 0 = .ok (.Ok 3) ∧
      resultWrap (fun _ : Nat => (Outcome.exc ⟨"boom"⟩ : Outcome Nat)) 0 =
        .ok (.Error ⟨"boom"⟩) ∧
      ∀ e, resultWrap (fun _ : Nat => (Outcome.base ⟨"interrupt"⟩ : Outcome Nat)) 0 ≠
        .exc e :=
  ⟨(result_wraps_outcomes (fun _ : Nat => Outcome.ok (3 : Nat)) 0).1 3 rfl,
    (result_wraps_outcomes (fun _ : Nat => (Outcome.exc ⟨"boom"⟩ : Outcome Nat)) 0).2.1
      ⟨"boom"⟩ rfl,
    (result_wraps_outcomes (fun _ : Nat => (Outcome.base ⟨"interrupt"⟩ : Outcome Nat)) 0).2.2⟩

end Pfun
